import Mathlib

/-!
Verification of the indexing core of the sophia_rs repository.

The development shallowly embeds the code of `src/sophia/src/graph/index.rs`
(secondary index maintenance, the `MutableGraph` adaptation macro, and the
`TermIndexMap` interning contract) and of `src/iri/src/_wrap_macro.rs`
(the validated-wrapper macro).

A Rust `HashMap<K, Vec<W>>` is embedded as an association list
`List (K × List W)`; a real hash map corresponds to an association list
whose keys are pairwise distinct (`DistinctKeys`), and lookups find the
unique (first) entry for a key.  Panics are embedded as `Option`: a
function that can panic returns `none` exactly on the panicking inputs.
-/

namespace Sophia

section SecondaryIndex

variable {K : Type} {W : Type} [DecidableEq K] [DecidableEq W]

/-- Lookup in the association-list model of `HashMap<K, Vec<W>>`:
the vector stored under key `k`, if any. -/
def lookupIdx : List (K × List W) → K → Option (List W)
  | [], _ => none
  | (k', ws) :: rest, k => if k' = k then some ws else lookupIdx rest k

/-- Key set discipline of a real `HashMap`: every key occurs in at most one
entry of the association list. -/
def DistinctKeys (hm : List (K × List W)) : Prop :=
  (hm.map Prod.fst).Nodup

/-- Embedding of `insert_in_index` (src/sophia/src/graph/index.rs, lines
134-145): `hm.entry(k).or_insert_with(|| { ret = true; Vec::new() }).push(w)`.
Returns the updated map together with `ret` (whether the `Vec` was created). -/
def insert_in_index : List (K × List W) → K → W → List (K × List W) × Bool
  | [], k, w => ([(k, [w])], true)
  | (k', ws) :: rest, k, w =>
    if k' = k then ((k', ws ++ [w]) :: rest, false)
    else
      let r := insert_in_index rest k w
      ((k', ws) :: r.1, r.2)

/-- Embedding of the index search in `remove_from_index`:
`ws.iter().enumerate().filter_map(|(i, w2)| if *w2 == w { Some(i) } else { None }).next()`,
i.e. the first position of `w` in `ws`, if any. -/
def firstIdxOf : List W → W → Option Nat
  | [], _ => none
  | a :: t, w => if a = w then some 0 else (firstIdxOf t w).map (· + 1)

/-- Embedding of `Vec::swap_remove(i)`: the element at position `i` is
replaced by the last element, and the last slot is dropped. -/
def swapRemove (l : List W) (i : Nat) : List W :=
  match l.getLast? with
  | none => []
  | some z => (l.set i z).dropLast

/-- Embedding of `remove_from_index` (src/sophia/src/graph/index.rs, lines
160-185).  `none` models a panic: the `unreachable!()` on a vacant entry, or
the `.unwrap()` when `w` does not occur in a bucket of length `> 1`.
When the bucket has length `> 1` the first occurrence of `w` is
swap-removed and `false` is returned; otherwise the whole entry is removed
and `true` is returned. -/
def remove_from_index : List (K × List W) → K → W → Option (List (K × List W) × Bool)
  | [], _, _ => none
  | (k', ws) :: rest, k, w =>
    if k' = k then
      if 1 < ws.length then
        match firstIdxOf ws w with
        | none => none
        | some wi => some ((k', swapRemove ws wi) :: rest, false)
      else
        some (rest, true)
    else
      (remove_from_index rest k w).map (fun p => ((k', ws) :: p.1, p.2))

end SecondaryIndex

end Sophia

namespace Sophia

section SecondaryIndexLemmas

variable {K : Type} {W : Type}

theorem lookupIdx_cons [DecidableEq K] (k' : K) (ws : List W)
    (rest : List (K × List W)) (k : K) :
    lookupIdx ((k', ws) :: rest) k = if k' = k then some ws else lookupIdx rest k := rfl

theorem lookupIdx_eq_none_of_not_mem [DecidableEq K] (hm : List (K × List W))
    (k : K) (h : k ∉ hm.map Prod.fst) : lookupIdx hm k = none := by
  induction hm with
  | nil => rfl
  | cons e rest ih =>
    obtain ⟨k', ws⟩ := e
    simp only [List.map_cons, List.mem_cons, not_or] at h
    rw [lookupIdx_cons, if_neg (fun hh => h.1 hh.symm)]
    exact ih h.2

theorem DistinctKeys.tail [DecidableEq K] {e : K × List W} {rest : List (K × List W)}
    (hd : DistinctKeys (e :: rest)) : DistinctKeys rest := by
  unfold DistinctKeys at hd ⊢
  rw [List.map_cons, List.nodup_cons] at hd
  exact hd.2

theorem DistinctKeys.head_not_mem [DecidableEq K] {k : K} {ws : List W}
    {rest : List (K × List W)} (hd : DistinctKeys ((k, ws) :: rest)) :
    lookupIdx rest k = none := by
  unfold DistinctKeys at hd
  rw [List.map_cons, List.nodup_cons] at hd
  exact lookupIdx_eq_none_of_not_mem rest k hd.1

/-- C1: `insert_in_index` stores `old ++ [w]` under `k` (with `old = []` when
the key was absent, and appending even when `w` is already present, so the
bucket grows by exactly one element), and it reports creation exactly when
the key was absent from the map before the call. -/
theorem insert_in_index_spec [DecidableEq K] (hm : List (K × List W)) (k : K) (w : W) :
    lookupIdx (insert_in_index hm k w).1 k
      = some ((lookupIdx hm k).getD [] ++ [w]) ∧
    (insert_in_index hm k w).2 = (lookupIdx hm k).isNone := by
  induction hm with
  | nil => simp [insert_in_index, lookupIdx]
  | cons e rest ih =>
    obtain ⟨k', ws⟩ := e
    by_cases hk : k' = k
    · subst hk
      simp [insert_in_index, lookupIdx]
    · simpa [insert_in_index, lookupIdx, hk] using ih

theorem swapRemove_cons_succ (a b : W) (u : List W) (i : Nat) :
    swapRemove (a :: b :: u) (i + 1) = a :: swapRemove (b :: u) i := by
  obtain ⟨z, hz⟩ : ∃ z, (b :: u).getLast? = some z := by
    cases h : (b :: u).getLast? with
    | none => simp at h
    | some z => exact ⟨z, rfl⟩
  unfold swapRemove
  rw [List.getLast?_cons_cons, hz]
  show ((a :: b :: u).set (i + 1) z).dropLast = a :: ((b :: u).set i z).dropLast
  rw [List.set_cons_succ]
  cases h : (b :: u).set i z with
  | nil =>
    have := congrArg List.length h
    simp at this
  | cons c cs => rw [List.dropLast_cons₂]

theorem swapRemove_zero_perm (a : W) (t : List W) :
    (swapRemove (a :: t) 0).Perm t := by
  cases t with
  | nil => simp [swapRemove]
  | cons b u =>
    obtain ⟨z, hz⟩ : ∃ z, (b :: u).getLast? = some z := by
      cases h : (b :: u).getLast? with
      | none => simp at h
      | some z => exact ⟨z, rfl⟩
    unfold swapRemove
    rw [List.getLast?_cons_cons, hz]
    show (((a :: b :: u).set 0 z).dropLast).Perm (b :: u)
    rw [List.set_cons_zero, List.dropLast_cons₂]
    have h2 : (b :: u).dropLast ++ [z] = b :: u :=
      List.dropLast_append_getLast? z hz
    have h3 := List.perm_append_singleton z ((b :: u).dropLast)
    rw [h2] at h3
    exact h3.symm

/-- The first occurrence of a present element is found, and swap-removing at
that position removes exactly one occurrence (up to reordering). -/
theorem firstIdxOf_mem_perm [DecidableEq W] (w : W) (ws : List W) (hw : w ∈ ws) :
    ∃ wi, firstIdxOf ws w = some wi ∧ (swapRemove ws wi).Perm (ws.erase w) := by
  induction ws with
  | nil => cases hw
  | cons a t ih =>
    by_cases ha : a = w
    · subst ha
      refine ⟨0, by simp [firstIdxOf], ?_⟩
      rw [List.erase_cons_head]
      exact swapRemove_zero_perm a t
    · have hwt : w ∈ t := by
        cases hw with
        | head => exact absurd rfl ha
        | tail _ h => exact h
      obtain ⟨wi, hwi, hperm⟩ := ih hwt
      refine ⟨wi + 1, by simp [firstIdxOf, ha, hwi], ?_⟩
      cases t with
      | nil => cases hwt
      | cons b u =>
        rw [swapRemove_cons_succ, List.erase_cons_tail (by simp [ha])]
        exact hperm.cons a

/-- C2: under the presence precondition, `remove_from_index` does not panic;
it returns `true` exactly when the bucket held a single element (in which case
the whole entry is deleted), and on a larger bucket it removes exactly one
occurrence of `w`, keeping every other element (as a multiset). -/
theorem remove_from_index_spec [DecidableEq K] [DecidableEq W]
    (hm : List (K × List W)) (k : K) (w : W) (ws : List W)
    (hk : lookupIdx hm k = some ws) (hw : w ∈ ws) (hd : DistinctKeys hm) :
    (remove_from_index hm k w).map (fun p => p.2)
        = some (decide (ws.length = 1)) ∧
    (remove_from_index hm k w).map
        (fun p => (lookupIdx p.1 k).map (fun (l : List W) => (l : Multiset W)))
      = some (if ws.length = 1 then none
              else some ((ws : Multiset W).erase w)) := by
  induction hm with
  | nil => simp [lookupIdx] at hk
  | cons e rest ih =>
    obtain ⟨k', ws'⟩ := e
    by_cases hkk : k' = k
    · rw [lookupIdx_cons, if_pos hkk] at hk
      obtain rfl : ws = ws' := (Option.some.inj hk).symm
      have hrest : lookupIdx rest k = none := hkk ▸ hd.head_not_mem
      by_cases hlen : 1 < ws.length
      · obtain ⟨wi, hwi, hperm⟩ := firstIdxOf_mem_perm w ws hw
        have hne1 : ¬ ws.length = 1 := by omega
        have hcoe : ((swapRemove ws wi : List W) : Multiset W)
            = (ws : Multiset W).erase w := by
          rw [Multiset.coe_erase]
          exact Multiset.coe_eq_coe.mpr hperm
        constructor
        · simp [remove_from_index, hkk, hlen, hwi, hne1]
        · simp [remove_from_index, hkk, hlen, hwi, hne1, lookupIdx_cons, hcoe]
      · have hws1 : ws.length = 1 := by
          have : 0 < ws.length := List.length_pos.mpr (List.ne_nil_of_mem hw)
          omega
        constructor
        · simp [remove_from_index, hkk, hlen, hws1]
        · simp [remove_from_index, hkk, hlen, hws1, hrest]
    · rw [lookupIdx_cons, if_neg hkk] at hk
      obtain ⟨ih1, ih2⟩ := ih hk hd.tail
      cases hrem : remove_from_index rest k w with
      | none => rw [hrem] at ih1; simp at ih1
      | some p =>
        rw [hrem] at ih1 ih2
        constructor
        · simpa [remove_from_index, hkk, hrem] using ih1
        · simpa [remove_from_index, hkk, hrem, lookupIdx_cons] using ih2

/-- Witness for the C2 theorem at a concrete two-element bucket. -/
theorem remove_from_index_spec_witness :
    lookupIdx [((0 : Nat), [(1 : Nat), 2])] 0 = some [1, 2] ∧
    (1 : Nat) ∈ [(1 : Nat), 2] ∧
    DistinctKeys [((0 : Nat), [(1 : Nat), 2])] ∧
    ((remove_from_index [((0 : Nat), [(1 : Nat), 2])] 0 1).map (fun p => p.2)
        = some (decide (([(1 : Nat), 2]).length = 1)) ∧
     (remove_from_index [((0 : Nat), [(1 : Nat), 2])] 0 1).map
        (fun p => (lookupIdx p.1 0).map (fun (l : List Nat) => (l : Multiset Nat)))
      = some (if ([(1 : Nat), 2]).length = 1 then none
              else some (([(1 : Nat), 2] : Multiset Nat).erase 1))) :=
  ⟨rfl, by decide, by simp [DistinctKeys],
    remove_from_index_spec _ _ _ _ rfl (by decide) (by simp [DistinctKeys])⟩

/-- C3 (evidence): on a one-element bucket not containing the requested
value, `remove_from_index` does not panic: it deletes the entry and returns
`true`, contradicting its own documented panic condition. -/
theorem remove_from_index_skips_presence_check :
    remove_from_index [((0 : Nat), [(1 : Nat)])] 0 2
      = some ([], true) := by decide

/-- C4: on a one-element bucket `[x]` with `x ≠ w`, `remove_from_index` does
not panic; it deletes the whole entry for `k` and returns `true` (the
dependent-presence precondition is only checked on buckets of length `> 1`). -/
theorem remove_from_index_sole_mismatch [DecidableEq K] [DecidableEq W]
    (hm : List (K × List W)) (k : K) (x w : W)
    (hk : lookupIdx hm k = some [x]) (hxw : x ≠ w) (hd : DistinctKeys hm) :
    (remove_from_index hm k w).map (fun p => (p.2, lookupIdx p.1 k))
      = some (true, none) := by
  induction hm with
  | nil => simp [lookupIdx] at hk
  | cons e rest ih =>
    obtain ⟨k', ws'⟩ := e
    by_cases hkk : k' = k
    · rw [lookupIdx_cons, if_pos hkk] at hk
      obtain rfl : ws' = [x] := Option.some.inj hk
      have hrest : lookupIdx rest k = none := hkk ▸ hd.head_not_mem
      simp [remove_from_index, hkk, hrest]
    · rw [lookupIdx_cons, if_neg hkk] at hk
      have ih2 := ih hk hd.tail
      cases hrem : remove_from_index rest k w with
      | none => rw [hrem] at ih2; simp at ih2
      | some p =>
        rw [hrem] at ih2
        simpa [remove_from_index, hkk, hrem, lookupIdx_cons] using ih2

/-- Witness for the C4 theorem at a concrete mismatched one-element bucket. -/
theorem remove_from_index_sole_mismatch_witness :
    lookupIdx [((0 : Nat), [(5 : Nat)])] 0 = some [5] ∧ (5 : Nat) ≠ 7 ∧
    DistinctKeys [((0 : Nat), [(5 : Nat)])] ∧
    (remove_from_index [((0 : Nat), [(5 : Nat)])] 0 7).map
        (fun p => (p.2, lookupIdx p.1 0)) = some (true, none) :=
  ⟨rfl, by decide, by simp [DistinctKeys],
    remove_from_index_sole_mismatch _ _ _ _ rfl (by decide) (by simp [DistinctKeys])⟩

/-- C9: both secondary-index operations are local to their key: the entry of
any other key `k'` (its presence and its bucket) is unchanged by
`insert_in_index`, and by any non-panicking call to `remove_from_index`. -/
theorem secondary_index_frame [DecidableEq K] [DecidableEq W]
    (hm : List (K × List W)) (k k' : K) (w : W) (hne : k' ≠ k) :
    lookupIdx (insert_in_index hm k w).1 k' = lookupIdx hm k' ∧
    (remove_from_index hm k w).map (fun p => lookupIdx p.1 k')
      = (remove_from_index hm k w).map (fun _ => lookupIdx hm k') := by
  induction hm with
  | nil => simp [insert_in_index, lookupIdx, remove_from_index, Ne.symm hne]
  | cons e rest ih =>
    obtain ⟨k'', ws⟩ := e
    by_cases hkk : k'' = k
    · have hk3 : ¬ k = k' := fun h => hne h.symm
      constructor
      · simp [insert_in_index, hkk, lookupIdx_cons, hk3]
      · by_cases hlen : 1 < ws.length
        · cases hfi : firstIdxOf ws w with
          | none => simp [remove_from_index, hkk, hlen, hfi]
          | some wi => simp [remove_from_index, hkk, hlen, hfi, lookupIdx_cons, hk3]
        · simp [remove_from_index, hkk, hlen, lookupIdx_cons, hk3]
    · obtain ⟨ih1, ih2⟩ := ih
      constructor
      · by_cases h2 : k'' = k' <;>
          simp [insert_in_index, hkk, lookupIdx_cons, h2, hne, ih1]
      · cases hrem : remove_from_index rest k w with
        | none => simp [remove_from_index, hkk, hrem]
        | some p =>
          rw [hrem] at ih2
          have hp : lookupIdx p.1 k' = lookupIdx rest k' := Option.some.inj ih2
          by_cases h2 : k'' = k' <;>
            simp [remove_from_index, hkk, hrem, lookupIdx_cons, h2, hne, hp]

/-- Witness for the C9 theorem at a concrete map with one other key. -/
theorem secondary_index_frame_witness :
    (1 : Nat) ≠ 0 ∧
    (lookupIdx (insert_in_index [((0 : Nat), [(1 : Nat)])] 0 2).1 1
        = lookupIdx [((0 : Nat), [(1 : Nat)])] 1 ∧
     (remove_from_index [((0 : Nat), [(1 : Nat)])] 0 1).map (fun p => lookupIdx p.1 1)
        = (remove_from_index [((0 : Nat), [(1 : Nat)])] 0 1).map
            (fun _ => lookupIdx [((0 : Nat), [(1 : Nat)])] 1)) :=
  ⟨by decide, secondary_index_frame _ _ _ _ (by decide)⟩

end SecondaryIndexLemmas

section MutableGraphAdapter

/-- Model of the `IndexedGraph` trait operations used by the
`impl_mutable_graph_for_indexed_mutable_graph!` macro
(src/sophia/src/graph/index.rs, lines 53-93): `insert_indexed` and
`remove_indexed` take the graph state and a term triple and return the new
state together with the optional handle-triple. -/
structure IndexedGraphModel (σ Idx T : Type) where
  insert_indexed : σ → T → T → T → σ × Option (Idx × Idx × Idx)
  remove_indexed : σ → T → T → T → σ × Option (Idx × Idx × Idx)

/-- The mutation error type of the generated `MutableGraph` implementation:
`coercible_errors::Never`, an uninhabited type. -/
def MutationError : Type := Empty

/-- Embedding of the `insert` method generated by
`impl_mutable_graph_for_indexed_mutable_graph!` (src/sophia/src/graph/index.rs,
lines 109-115): `Ok(self.insert_indexed(s, p, o).is_some())`. -/
def mgInsert {σ Idx T : Type} (G : IndexedGraphModel σ Idx T) (st : σ)
    (s p o : T) : σ × Except MutationError Bool :=
  let r := G.insert_indexed st s p o
  (r.1, Except.ok r.2.isSome)

/-- Embedding of the `remove` method generated by
`impl_mutable_graph_for_indexed_mutable_graph!` (src/sophia/src/graph/index.rs,
lines 116-122): `Ok(self.remove_indexed(s, p, o).is_some())`. -/
def mgRemove {σ Idx T : Type} (G : IndexedGraphModel σ Idx T) (st : σ)
    (s p o : T) : σ × Except MutationError Bool :=
  let r := G.remove_indexed st s p o
  (r.1, Except.ok r.2.isSome)

/-- C5: the generated `MutableGraph` adaptation never fails: `insert` always
returns `Ok` of "`insert_indexed` returned a handle-triple", `remove` always
returns `Ok` of "`remove_indexed` returned a handle-triple", and the error
type is uninhabited, so no error value can ever be produced. -/
theorem mutable_graph_adapter_total (σ Idx T : Type)
    (G : IndexedGraphModel σ Idx T) (st : σ) (s p o : T) :
    (mgInsert G st s p o).2 = Except.ok ((G.insert_indexed st s p o).2).isSome ∧
    (mgRemove G st s p o).2 = Except.ok ((G.remove_indexed st s p o).2).isSome ∧
    ∀ e : MutationError, False :=
  ⟨rfl, rfl, fun e => nomatch e⟩

end MutableGraphAdapter

section WrapMacro

/-- Embedding of the wrapper type generated by the `wrap!` macro
(src/iri/src/_wrap_macro.rs, line 65): a read-only wrapper
`pub struct $wid<T>(T)` around a single inner value. -/
structure Wrap (T : Type) where
  inner : T

/-- Embedding of the generated `PartialEq` impl (src/iri/src/_wrap_macro.rs,
lines 132-140): `self.0 == rhs.0`, with the (possibly heterogeneous) equality
of the wrapped types passed as `eqv`. -/
def Wrap.eqW {U T : Type} (eqv : U → T → Bool) (a : Wrap U) (b : Wrap T) : Bool :=
  eqv a.inner b.inner

/-- Embedding of the generated `PartialOrd` impl (src/iri/src/_wrap_macro.rs,
lines 147-155): `PartialOrd::partial_cmp(&self.0, &rhs.0)`. -/
def Wrap.pcmpW {U T : Type} (pc : U → T → Option Ordering) (a : Wrap U)
    (b : Wrap T) : Option Ordering :=
  pc a.inner b.inner

/-- Embedding of the generated `Ord` impl (src/iri/src/_wrap_macro.rs,
lines 157-164): `Ord::cmp(&self.0, &rhs.0)`. -/
def Wrap.cmpW {T : Type} (c : T → T → Ordering) (a b : Wrap T) : Ordering :=
  c a.inner b.inner

/-- Embedding of the generated `Hash` impl (src/iri/src/_wrap_macro.rs,
lines 167-174): `self.0.hash(state)`, with the hasher modelled as a state
type `H` and the inner type's hash function as a state transformer. -/
def Wrap.hashW {T H : Type} (hf : T → H → H) (a : Wrap T) (st : H) : H :=
  hf a.inner st

/-- C10: the wrapper generated by `wrap!` delegates comparison and hashing to
the wrapped value: equality of wrappers coincides with equality of the inner
values, `partial_cmp` and `cmp` of wrappers coincide with those of the inner
values, and hashing a wrapper from any hasher state produces the same state
as hashing the inner value directly. -/
theorem wrap_delegates (T U H : Type) (eqv : U → T → Bool)
    (pc : U → T → Option Ordering) (c : T → T → Ordering) (hf : T → H → H)
    (a : U) (b : T) (x y : T) (st : H) :
    Wrap.eqW eqv ⟨a⟩ ⟨b⟩ = eqv a b ∧
    Wrap.pcmpW pc ⟨a⟩ ⟨b⟩ = pc a b ∧
    Wrap.cmpW c ⟨x⟩ ⟨y⟩ = c x y ∧
    Wrap.hashW hf ⟨x⟩ st = hf x st :=
  ⟨rfl, rfl, rfl, rfl⟩

end WrapMacro

section TermInterning

/-- Modelled from the spec: the concrete implementations of the
`TermIndexMap` trait (src/sophia/src/graph/index.rs, lines 19-40) are not
among the analysed sources; only the trait and its generic test
`assert_term_index_works` are.  Following §4.1 and §9 of the spec, the
interning table is modelled as an arena of entries, each holding an owned
term, its handle and its reference count. -/
structure TIMEntry (T : Type) where
  term : T
  idx : Nat
  refc : Nat

/-- Modelled from the spec: a `TermIndexMap` state is the arena of live
entries together with the next fresh handle value. -/
structure TermIndexMap (T : Type) where
  entries : List (TIMEntry T)
  next : Nat

/-- Modelled from the spec: the reserved null handle (§3), never associated
with any term; normal allocation never produces it. -/
def NULL_INDEX : Nat := 0

/-- Modelled from the spec: the `Default` table: no entries, and allocation
starting just after the reserved null handle. -/
def TermIndexMap.empty (T : Type) : TermIndexMap T := ⟨[], 1⟩

/-- First entry of the arena holding the given term, if any. -/
def findTerm {T : Type} [DecidableEq T] : List (TIMEntry T) → T → Option (TIMEntry T)
  | [], _ => none
  | e :: rest, t => if e.term = t then some e else findTerm rest t

/-- First entry of the arena holding the given handle, if any. -/
def findHandle {T : Type} : List (TIMEntry T) → Nat → Option (TIMEntry T)
  | [], _ => none
  | e :: rest, i => if e.idx = i then some e else findHandle rest i

/-- Modelled from the spec: `get_index(term)` — pure lookup of the handle of
a currently interned term. -/
def TermIndexMap.get_index {T : Type} [DecidableEq T] (m : TermIndexMap T)
    (t : T) : Option Nat :=
  (findTerm m.entries t).map (fun e => e.idx)

/-- Modelled from the spec: `get_term(handle)` — `none` for the null handle
and for handles that are not currently live. -/
def TermIndexMap.get_term {T : Type} (m : TermIndexMap T) (i : Nat) : Option T :=
  if i = NULL_INDEX then none
  else (findHandle m.entries i).map (fun e => e.term)

/-- Modelled from the spec: `make_index(term)` — an already interned term has
its reference count incremented and its handle returned; an unseen term is
stored under the next fresh handle with reference count `1`. -/
def TermIndexMap.make_index {T : Type} [DecidableEq T] (m : TermIndexMap T)
    (t : T) : Nat × TermIndexMap T :=
  match findTerm m.entries t with
  | some e =>
    (e.idx,
     ⟨m.entries.map (fun e2 =>
        if e2.term = t then ⟨e2.term, e2.idx, e2.refc + 1⟩ else e2),
      m.next⟩)
  | none => (m.next, ⟨m.entries ++ [⟨t, m.next, 1⟩], m.next + 1⟩)

/-- Modelled from the spec: `inc_ref(handle)` — increments the count of a
live, non-null handle; calling it on the null handle or a dead handle is a
fatal programming error, embedded as `none`. -/
def TermIndexMap.inc_ref {T : Type} (m : TermIndexMap T) (i : Nat) :
    Option (TermIndexMap T) :=
  if i = NULL_INDEX then none
  else
    match findHandle m.entries i with
    | none => none
    | some _ =>
      some ⟨m.entries.map (fun e2 =>
              if e2.idx = i then ⟨e2.term, e2.idx, e2.refc + 1⟩ else e2),
            m.next⟩

/-- Modelled from the spec: `dec_ref(handle)` — decrements the count of a
live, non-null handle, removing the whole entry when the count reaches zero;
misuse is a fatal programming error, embedded as `none`. -/
def TermIndexMap.dec_ref {T : Type} (m : TermIndexMap T) (i : Nat) :
    Option (TermIndexMap T) :=
  if i = NULL_INDEX then none
  else
    match findHandle m.entries i with
    | none => none
    | some e =>
      if e.refc ≤ 1 then
        some ⟨m.entries.filter (fun e2 => decide (e2.idx ≠ i)), m.next⟩
      else
        some ⟨m.entries.map (fun e2 =>
                if e2.idx = i then ⟨e2.term, e2.idx, e2.refc - 1⟩ else e2),
              m.next⟩

/-- Modelled from the spec: `shrink_to_fit` — releases capacity only, a
no-op with respect to every observable mapping. -/
def TermIndexMap.shrink_to_fit {T : Type} (m : TermIndexMap T) : TermIndexMap T := m

/-- Table states reachable from the empty table by any sequence of
`make_index`, `inc_ref`, `dec_ref` and `shrink_to_fit`. -/
inductive Reachable {T : Type} [DecidableEq T] : TermIndexMap T → Prop
  | empty : Reachable (TermIndexMap.empty T)
  | make (m : TermIndexMap T) (t : T) :
      Reachable m → Reachable (m.make_index t).2
  | inc (m m' : TermIndexMap T) (i : Nat) :
      Reachable m → m.inc_ref i = some m' → Reachable m'
  | dec (m m' : TermIndexMap T) (i : Nat) :
      Reachable m → m.dec_ref i = some m' → Reachable m'
  | shrink (m : TermIndexMap T) : Reachable m → Reachable m.shrink_to_fit

/-- Structural invariant of the interning table: allocation starts after the
null handle, every entry has a non-null handle below the allocation bound and
a positive reference count, and entries hold pairwise distinct terms and
pairwise distinct handles. -/
def WF {T : Type} (m : TermIndexMap T) : Prop :=
  1 ≤ m.next ∧
  (∀ e ∈ m.entries, 1 ≤ e.idx ∧ e.idx < m.next ∧ 1 ≤ e.refc) ∧
  m.entries.Pairwise (fun a b => a.term ≠ b.term ∧ a.idx ≠ b.idx)

end TermInterning

section TermInterningLemmas

variable {T : Type}

theorem findTerm_eq_none_iff [DecidableEq T] (l : List (TIMEntry T)) (t : T) :
    findTerm l t = none ↔ ∀ e ∈ l, e.term ≠ t := by
  induction l with
  | nil => simp [findTerm]
  | cons e rest ih =>
    by_cases h : e.term = t <;> simp [findTerm, h, ih]

theorem findTerm_mem [DecidableEq T] {l : List (TIMEntry T)} {t : T}
    {e : TIMEntry T} (h : findTerm l t = some e) : e ∈ l ∧ e.term = t := by
  induction l with
  | nil => cases h
  | cons a rest ih =>
    by_cases ha : a.term = t
    · rw [findTerm, if_pos ha] at h
      obtain rfl : a = e := Option.some.inj h
      exact ⟨List.mem_cons_self _ _, ha⟩
    · rw [findTerm, if_neg ha] at h
      obtain ⟨h1, h2⟩ := ih h
      exact ⟨List.mem_cons_of_mem _ h1, h2⟩

theorem findHandle_mem {l : List (TIMEntry T)} {i : Nat} {e : TIMEntry T}
    (h : findHandle l i = some e) : e ∈ l ∧ e.idx = i := by
  induction l with
  | nil => cases h
  | cons a rest ih =>
    by_cases ha : a.idx = i
    · rw [findHandle, if_pos ha] at h
      obtain rfl : a = e := Option.some.inj h
      exact ⟨List.mem_cons_self _ _, ha⟩
    · rw [findHandle, if_neg ha] at h
      obtain ⟨h1, h2⟩ := ih h
      exact ⟨List.mem_cons_of_mem _ h1, h2⟩

theorem findHandle_eq_none {l : List (TIMEntry T)} {i : Nat}
    (h : ∀ e ∈ l, e.idx ≠ i) : findHandle l i = none := by
  induction l with
  | nil => rfl
  | cons a rest ih =>
    rw [findHandle, if_neg (h a (List.mem_cons_self _ _))]
    exact ih (fun e he => h e (List.mem_cons_of_mem _ he))

theorem findTerm_append_none [DecidableEq T] {l : List (TIMEntry T)}
    (l' : List (TIMEntry T)) {t : T} (h : findTerm l t = none) :
    findTerm (l ++ l') t = findTerm l' t := by
  induction l with
  | nil => rfl
  | cons a rest ih =>
    rw [findTerm] at h
    by_cases ha : a.term = t
    · rw [if_pos ha] at h; cases h
    · rw [if_neg ha] at h
      rw [List.cons_append, findTerm, if_neg ha]
      exact ih h

theorem findTerm_append_some [DecidableEq T] {l : List (TIMEntry T)}
    (l' : List (TIMEntry T)) {t : T} {e : TIMEntry T}
    (h : findTerm l t = some e) : findTerm (l ++ l') t = some e := by
  induction l with
  | nil => cases h
  | cons a rest ih =>
    rw [findTerm] at h
    by_cases ha : a.term = t
    · rw [if_pos ha] at h
      rw [List.cons_append, findTerm, if_pos ha]
      exact h
    · rw [if_neg ha] at h
      rw [List.cons_append, findTerm, if_neg ha]
      exact ih h

theorem findHandle_append_none {l : List (TIMEntry T)}
    (l' : List (TIMEntry T)) {i : Nat} (h : ∀ e ∈ l, e.idx ≠ i) :
    findHandle (l ++ l') i = findHandle l' i := by
  induction l with
  | nil => rfl
  | cons a rest ih =>
    rw [List.cons_append, findHandle, if_neg (h a (List.mem_cons_self _ _))]
    exact ih (fun e he => h e (List.mem_cons_of_mem _ he))

theorem findTerm_map [DecidableEq T] (l : List (TIMEntry T)) (t : T)
    (f : TIMEntry T → TIMEntry T) (hf : ∀ e, (f e).term = e.term) :
    findTerm (l.map f) t = (findTerm l t).map f := by
  induction l with
  | nil => rfl
  | cons a rest ih =>
    rw [List.map_cons, findTerm, findTerm, hf a]
    by_cases ha : a.term = t
    · rw [if_pos ha, if_pos ha]
      rfl
    · rw [if_neg ha, if_neg ha, ih]

theorem findHandle_unique {l : List (TIMEntry T)} :
    l.Pairwise (fun a b => a.term ≠ b.term ∧ a.idx ≠ b.idx) →
    ∀ {i : Nat} {e : TIMEntry T}, findHandle l i = some e →
    ∀ e2 ∈ l, e2.idx = i → e2 = e := by
  induction l with
  | nil =>
    intro _ i e h
    cases h
  | cons a rest ih =>
    intro hp i e h e2 he2 hi2
    rw [List.pairwise_cons] at hp
    rw [findHandle] at h
    by_cases ha : a.idx = i
    · rw [if_pos ha] at h
      obtain rfl : a = e := Option.some.inj h
      cases he2 with
      | head => rfl
      | tail _ hmem => exact absurd (ha.trans hi2.symm) (hp.1 e2 hmem).2
    · rw [if_neg ha] at h
      cases he2 with
      | head => exact absurd hi2 ha
      | tail _ hmem => exact ih hp.2 h e2 hmem hi2

theorem map_id_of {α : Type} (l : List α) (f : α → α) (h : ∀ a ∈ l, f a = a) :
    l.map f = l :=
  (List.map_congr_left h).trans (List.map_id' l)

theorem entry_pairwise_symm :
    Symmetric (fun a b : TIMEntry T => a.term ≠ b.term ∧ a.idx ≠ b.idx) :=
  fun _ _ hab => ⟨Ne.symm hab.1, Ne.symm hab.2⟩

theorem make_index_of_findTerm_some [DecidableEq T] {m : TermIndexMap T}
    {t : T} {e : TIMEntry T} (h : findTerm m.entries t = some e) :
    m.make_index t
      = (e.idx,
         ⟨m.entries.map (fun e2 =>
            if e2.term = t then ⟨e2.term, e2.idx, e2.refc + 1⟩ else e2),
          m.next⟩) := by
  unfold TermIndexMap.make_index
  rw [h]

theorem make_index_of_findTerm_none [DecidableEq T] {m : TermIndexMap T}
    {t : T} (h : findTerm m.entries t = none) :
    m.make_index t = (m.next, ⟨m.entries ++ [⟨t, m.next, 1⟩], m.next + 1⟩) := by
  unfold TermIndexMap.make_index
  rw [h]

theorem pairwise_map_preserve {l : List (TIMEntry T)}
    (f : TIMEntry T → TIMEntry T)
    (hterm : ∀ e, (f e).term = e.term) (hidx : ∀ e, (f e).idx = e.idx)
    (hp : l.Pairwise (fun a b => a.term ≠ b.term ∧ a.idx ≠ b.idx)) :
    (l.map f).Pairwise (fun a b => a.term ≠ b.term ∧ a.idx ≠ b.idx) := by
  refine List.Pairwise.map f ?_ hp
  intro a b hab
  constructor
  · rw [hterm a, hterm b]
    exact hab.1
  · rw [hidx a, hidx b]
    exact hab.2

theorem wf_empty [DecidableEq T] : WF (TermIndexMap.empty T) := by
  refine ⟨le_refl 1, ?_, ?_⟩ <;> simp [TermIndexMap.empty]

theorem wf_make [DecidableEq T] {m : TermIndexMap T} (hwf : WF m) (t : T) :
    WF (m.make_index t).2 := by
  obtain ⟨h1, h2, h3⟩ := hwf
  cases hft : findTerm m.entries t with
  | some e =>
    rw [make_index_of_findTerm_some hft]
    have hterm : ∀ e2 : TIMEntry T,
        ((if e2.term = t then (⟨e2.term, e2.idx, e2.refc + 1⟩ : TIMEntry T)
          else e2)).term = e2.term := by
      intro e2
      by_cases hat : e2.term = t <;> simp [hat]
    have hidx : ∀ e2 : TIMEntry T,
        ((if e2.term = t then (⟨e2.term, e2.idx, e2.refc + 1⟩ : TIMEntry T)
          else e2)).idx = e2.idx := by
      intro e2
      by_cases hat : e2.term = t <;> simp [hat]
    have hrefc : ∀ e2 : TIMEntry T, e2.refc ≤
        ((if e2.term = t then (⟨e2.term, e2.idx, e2.refc + 1⟩ : TIMEntry T)
          else e2)).refc := by
      intro e2
      by_cases hat : e2.term = t <;> simp [hat]
    refine ⟨h1, ?_, ?_⟩
    · intro e2 he2
      rw [show ((e.idx, (⟨m.entries.map (fun e2 =>
            if e2.term = t then ⟨e2.term, e2.idx, e2.refc + 1⟩ else e2),
            m.next⟩ : TermIndexMap T)).2).entries = m.entries.map (fun e2 =>
            if e2.term = t then ⟨e2.term, e2.idx, e2.refc + 1⟩ else e2)
          from rfl] at he2
      rw [List.mem_map] at he2
      obtain ⟨a, ha, rfl⟩ := he2
      obtain ⟨b1, b2, b3⟩ := h2 a ha
      refine ⟨?_, ?_, ?_⟩
      · rw [hidx a]; exact b1
      · rw [hidx a]; exact b2
      · exact le_trans b3 (hrefc a)
    · exact pairwise_map_preserve _ hterm hidx h3
  | none =>
    rw [make_index_of_findTerm_none hft]
    refine ⟨by dsimp only; omega, ?_, ?_⟩
    · intro e2 he2
      rw [show ((m.next, (⟨m.entries ++ [⟨t, m.next, 1⟩], m.next + 1⟩ :
            TermIndexMap T)).2).entries = m.entries ++ [⟨t, m.next, 1⟩]
          from rfl] at he2
      dsimp only
      rw [List.mem_append] at he2
      cases he2 with
      | inl h =>
        obtain ⟨b1, b2, b3⟩ := h2 e2 h
        exact ⟨b1, by omega, b3⟩
      | inr h =>
        rw [List.mem_singleton] at h
        subst h
        exact ⟨h1, Nat.lt_succ_self m.next, le_refl 1⟩
    · dsimp only
      rw [List.pairwise_append]
      refine ⟨h3, List.pairwise_singleton _ _, ?_⟩
      intro a ha b hb
      rw [List.mem_singleton] at hb
      subst hb
      refine ⟨(findTerm_eq_none_iff m.entries t).mp hft a ha, ?_⟩
      have := (h2 a ha).2.1
      show a.idx ≠ m.next
      omega

theorem wf_inc {m m' : TermIndexMap T} {i : Nat} (hwf : WF m)
    (h : m.inc_ref i = some m') : WF m' := by
  obtain ⟨h1, h2, h3⟩ := hwf
  unfold TermIndexMap.inc_ref at h
  by_cases hz : i = NULL_INDEX
  · rw [if_pos hz] at h; cases h
  rw [if_neg hz] at h
  cases hfh : findHandle m.entries i with
  | none => rw [hfh] at h; cases h
  | some e =>
    rw [hfh] at h
    obtain rfl := Option.some.inj h
    have hterm : ∀ e2 : TIMEntry T,
        ((if e2.idx = i then (⟨e2.term, e2.idx, e2.refc + 1⟩ : TIMEntry T)
          else e2)).term = e2.term := by
      intro e2
      by_cases hai : e2.idx = i <;> simp [hai]
    have hidx : ∀ e2 : TIMEntry T,
        ((if e2.idx = i then (⟨e2.term, e2.idx, e2.refc + 1⟩ : TIMEntry T)
          else e2)).idx = e2.idx := by
      intro e2
      by_cases hai : e2.idx = i <;> simp [hai]
    have hrefc : ∀ e2 : TIMEntry T, e2.refc ≤
        ((if e2.idx = i then (⟨e2.term, e2.idx, e2.refc + 1⟩ : TIMEntry T)
          else e2)).refc := by
      intro e2
      by_cases hai : e2.idx = i <;> simp [hai]
    refine ⟨h1, ?_, ?_⟩
    · intro e2 he2
      rw [List.mem_map] at he2
      obtain ⟨a, ha, rfl⟩ := he2
      obtain ⟨b1, b2, b3⟩ := h2 a ha
      refine ⟨?_, ?_, ?_⟩
      · rw [hidx a]; exact b1
      · rw [hidx a]; exact b2
      · exact le_trans b3 (hrefc a)
    · exact pairwise_map_preserve _ hterm hidx h3

theorem wf_dec {m m' : TermIndexMap T} {i : Nat} (hwf : WF m)
    (h : m.dec_ref i = some m') : WF m' := by
  obtain ⟨h1, h2, h3⟩ := hwf
  unfold TermIndexMap.dec_ref at h
  by_cases hz : i = NULL_INDEX
  · rw [if_pos hz] at h; cases h
  rw [if_neg hz] at h
  cases hfh : findHandle m.entries i with
  | none => rw [hfh] at h; cases h
  | some e =>
    rw [hfh] at h
    have h' : (if e.refc ≤ 1 then
        some (⟨m.entries.filter (fun e2 => decide (e2.idx ≠ i)), m.next⟩ :
          TermIndexMap T)
      else
        some ⟨m.entries.map (fun e2 =>
          if e2.idx = i then ⟨e2.term, e2.idx, e2.refc - 1⟩ else e2),
          m.next⟩) = some m' := h
    by_cases hrc : e.refc ≤ 1
    · rw [if_pos hrc] at h'
      obtain rfl := Option.some.inj h'
      refine ⟨h1, ?_, ?_⟩
      · intro e2 he2
        exact h2 e2 (List.mem_of_mem_filter he2)
      · exact List.Pairwise.sublist (List.filter_sublist _) h3
    · rw [if_neg hrc] at h'
      obtain rfl := Option.some.inj h'
      have hu := findHandle_unique h3 hfh
      have hterm : ∀ e2 : TIMEntry T,
          ((if e2.idx = i then (⟨e2.term, e2.idx, e2.refc - 1⟩ : TIMEntry T)
            else e2)).term = e2.term := by
        intro e2
        by_cases hai : e2.idx = i <;> simp [hai]
      have hidx : ∀ e2 : TIMEntry T,
          ((if e2.idx = i then (⟨e2.term, e2.idx, e2.refc - 1⟩ : TIMEntry T)
            else e2)).idx = e2.idx := by
        intro e2
        by_cases hai : e2.idx = i <;> simp [hai]
      refine ⟨h1, ?_, ?_⟩
      · intro e2 he2
        rw [List.mem_map] at he2
        obtain ⟨a, ha, rfl⟩ := he2
        obtain ⟨b1, b2, b3⟩ := h2 a ha
        refine ⟨?_, ?_, ?_⟩
        · rw [hidx a]; exact b1
        · rw [hidx a]; exact b2
        · by_cases hai : a.idx = i
          · obtain rfl : a = e := hu a ha hai
            rw [if_pos hai]
            show 1 ≤ a.refc - 1
            omega
          · rw [if_neg hai]
            exact b3
      · exact pairwise_map_preserve _ hterm hidx h3

theorem Reachable.wf [DecidableEq T] {m : TermIndexMap T}
    (h : Reachable m) : WF m := by
  induction h with
  | empty => exact wf_empty
  | make m t _ ih => exact wf_make ih t
  | inc m m' i _ hop ih => exact wf_inc ih hop
  | dec m m' i _ hop ih => exact wf_dec ih hop
  | shrink m _ ih => exact ih

end TermInterningLemmas

section TermInterningClaims

variable {T : Type}

/-- Both injectivity directions of the live term-handle association of an
interning table: distinct live handles resolve to distinct terms, and
interning two distinct, non-equal terms in sequence yields two distinct
handles. -/
def BidirInjective [DecidableEq T] (m : TermIndexMap T) : Prop :=
  (∀ i1 i2 t1 t2, m.get_term i1 = some t1 → m.get_term i2 = some t2 →
      i1 ≠ i2 → t1 ≠ t2) ∧
  (∀ t1 t2, t1 ≠ t2 →
      (m.make_index t1).1 ≠ ((m.make_index t1).2.make_index t2).1)

/-- C6: in every reachable interning-table state, the live term-to-handle
association is injective in both directions: two distinct live handles never
resolve (via `get_term`) to equal terms, and two distinct, non-equal terms
always receive two distinct handles from `make_index`. -/
theorem tim_bidir_injective (T : Type) [DecidableEq T] (m : TermIndexMap T)
    (hr : Reachable m) : BidirInjective m := by
  obtain ⟨h1, h2, h3⟩ := hr.wf
  constructor
  · intro i1 i2 t1 t2 hg1 hg2 hne heq
    unfold TermIndexMap.get_term at hg1 hg2
    by_cases hz1 : i1 = NULL_INDEX
    · rw [if_pos hz1] at hg1; cases hg1
    rw [if_neg hz1] at hg1
    by_cases hz2 : i2 = NULL_INDEX
    · rw [if_pos hz2] at hg2; cases hg2
    rw [if_neg hz2] at hg2
    cases hf1 : findHandle m.entries i1 with
    | none => rw [hf1] at hg1; cases hg1
    | some e1 =>
      rw [hf1] at hg1
      cases hf2 : findHandle m.entries i2 with
      | none => rw [hf2] at hg2; cases hg2
      | some e2 =>
        rw [hf2] at hg2
        have ht1 : e1.term = t1 := Option.some.inj hg1
        have ht2 : e2.term = t2 := Option.some.inj hg2
        obtain ⟨hm1, hi1⟩ := findHandle_mem hf1
        obtain ⟨hm2, hi2⟩ := findHandle_mem hf2
        have hee : e1 ≠ e2 := by
          intro hh
          exact hne ((hi1.symm.trans (congrArg TIMEntry.idx hh)).trans hi2)
        exact (List.Pairwise.forall entry_pairwise_symm h3 hm1 hm2 hee).1
          (ht1.trans (heq.trans ht2.symm))
  · intro t1 t2 hne
    cases hf1 : findTerm m.entries t1 with
    | some e1 =>
      obtain ⟨hm1, ht1⟩ := findTerm_mem hf1
      rw [make_index_of_findTerm_some hf1]
      dsimp only
      have hterm : ∀ e2 : TIMEntry T, ((if e2.term = t1 then
          (⟨e2.term, e2.idx, e2.refc + 1⟩ : TIMEntry T) else e2)).term
            = e2.term := by
        intro e2
        by_cases hat : e2.term = t1 <;> simp [hat]
      have hmap := findTerm_map m.entries t2 (fun e2 =>
          if e2.term = t1 then ⟨e2.term, e2.idx, e2.refc + 1⟩ else e2) hterm
      cases hf2 : findTerm m.entries t2 with
      | some e2 =>
        rw [hf2] at hmap
        rw [make_index_of_findTerm_some (m := ⟨m.entries.map (fun e2 =>
            if e2.term = t1 then ⟨e2.term, e2.idx, e2.refc + 1⟩ else e2),
            m.next⟩) hmap]
        dsimp only
        have hidx2 : ((if e2.term = t1 then (⟨e2.term, e2.idx, e2.refc + 1⟩ :
            TIMEntry T) else e2)).idx = e2.idx := by
          by_cases hat : e2.term = t1 <;> simp [hat]
        rw [hidx2]
        obtain ⟨hm2, ht2⟩ := findTerm_mem hf2
        have hee : e1 ≠ e2 := by
          intro hh
          exact hne ((ht1.symm.trans (congrArg TIMEntry.term hh)).trans ht2)
        exact (List.Pairwise.forall entry_pairwise_symm h3 hm1 hm2 hee).2
      | none =>
        rw [hf2] at hmap
        rw [make_index_of_findTerm_none (m := ⟨m.entries.map (fun e2 =>
            if e2.term = t1 then ⟨e2.term, e2.idx, e2.refc + 1⟩ else e2),
            m.next⟩) hmap]
        dsimp only
        have := (h2 e1 hm1).2.1
        omega
    | none =>
      rw [make_index_of_findTerm_none hf1]
      dsimp only
      cases hf2 : findTerm m.entries t2 with
      | some e2 =>
        have happ : findTerm (m.entries ++ [⟨t1, m.next, 1⟩]) t2 = some e2 :=
          findTerm_append_some _ hf2
        have hmk := make_index_of_findTerm_some
          (m := (⟨m.entries ++ [⟨t1, m.next, 1⟩], m.next + 1⟩ : TermIndexMap T))
          happ
        rw [hmk]
        dsimp only
        have := (h2 e2 (findTerm_mem hf2).1).2.1
        omega
      | none =>
        have happ : findTerm (m.entries ++ [⟨t1, m.next, 1⟩]) t2 = none := by
          rw [findTerm_append_none _ hf2]
          simp [findTerm, hne]
        have hmk := make_index_of_findTerm_none
          (m := (⟨m.entries ++ [⟨t1, m.next, 1⟩], m.next + 1⟩ : TermIndexMap T))
          happ
        rw [hmk]
        dsimp only
        omega

/-- Witness for the C6 theorem at a concrete reachable two-term table. -/
theorem tim_bidir_injective_witness :
    Reachable (((TermIndexMap.empty Nat).make_index 10).2.make_index 20).2 ∧
    BidirInjective (((TermIndexMap.empty Nat).make_index 10).2.make_index 20).2 :=
  ⟨Reachable.make _ 20 (Reachable.make _ 10 Reachable.empty),
   tim_bidir_injective Nat _
     (Reachable.make _ 20 (Reachable.make _ 10 Reachable.empty))⟩

/-- C7: interning a term that is not currently interned returns a handle
distinct from the null handle; in the resulting state the term resolves to
that same handle, and the handle resolves back to the term. -/
theorem tim_make_index_fresh (T : Type) [DecidableEq T] (m : TermIndexMap T)
    (t : T) (hr : Reachable m) (ht : m.get_index t = none) :
    (m.make_index t).1 ≠ NULL_INDEX ∧
    (m.make_index t).2.get_index t = some (m.make_index t).1 ∧
    (m.make_index t).2.get_term (m.make_index t).1 = some t := by
  obtain ⟨h1, h2, h3⟩ := hr.wf
  have hft : findTerm m.entries t = none := by
    unfold TermIndexMap.get_index at ht
    cases h : findTerm m.entries t with
    | none => rfl
    | some e => rw [h] at ht; cases ht
  have hbound : ∀ e ∈ m.entries, e.idx ≠ m.next := by
    intro e he
    have := (h2 e he).2.1
    omega
  have hnz : ¬ m.next = NULL_INDEX := by
    unfold NULL_INDEX
    omega
  have hfind1 : findTerm (m.entries ++ [⟨t, m.next, 1⟩]) t
      = some ⟨t, m.next, 1⟩ := by
    rw [findTerm_append_none _ hft]
    simp [findTerm]
  have hfind2 : findHandle (m.entries ++ [⟨t, m.next, 1⟩]) m.next
      = some ⟨t, m.next, 1⟩ := by
    rw [findHandle_append_none _ hbound]
    simp [findHandle]
  rw [make_index_of_findTerm_none hft]
  dsimp only
  refine ⟨hnz, ?_, ?_⟩
  · unfold TermIndexMap.get_index
    dsimp only
    rw [hfind1]
    rfl
  · unfold TermIndexMap.get_term
    dsimp only
    rw [if_neg hnz, hfind2]
    rfl

/-- Witness for the C7 theorem at the empty table and a concrete term. -/
theorem tim_make_index_fresh_witness :
    Reachable (TermIndexMap.empty Nat) ∧
    (TermIndexMap.empty Nat).get_index 10 = none ∧
    (((TermIndexMap.empty Nat).make_index 10).1 ≠ NULL_INDEX ∧
     ((TermIndexMap.empty Nat).make_index 10).2.get_index 10
        = some ((TermIndexMap.empty Nat).make_index 10).1 ∧
     ((TermIndexMap.empty Nat).make_index 10).2.get_term
        ((TermIndexMap.empty Nat).make_index 10).1 = some 10) :=
  ⟨Reachable.empty, rfl, tim_make_index_fresh Nat _ 10 Reachable.empty rfl⟩

/-- C8: starting from any reachable state in which `t` is not interned,
interning `t` twice returns the identical handle both times; after one
`dec_ref` of that handle the term still resolves to it (count 2 to 1); after
a second `dec_ref` the term no longer resolves and neither does the handle
(count 1 to 0, entry removed). -/
theorem tim_refcount_lifecycle (T : Type) [DecidableEq T] (m : TermIndexMap T)
    (t : T) (hr : Reachable m) (ht : m.get_index t = none) :
    ((m.make_index t).2.make_index t).1 = (m.make_index t).1 ∧
    (((m.make_index t).2.make_index t).2.dec_ref (m.make_index t).1).map
        (fun m3 => m3.get_index t) = some (some (m.make_index t).1) ∧
    ((((m.make_index t).2.make_index t).2.dec_ref (m.make_index t).1).bind
        (fun m3 => m3.dec_ref (m.make_index t).1)).map
        (fun m4 => (m4.get_index t, m4.get_term (m.make_index t).1))
      = some (none, none) := by
  obtain ⟨h1, h2, h3⟩ := hr.wf
  have hft : findTerm m.entries t = none := by
    unfold TermIndexMap.get_index at ht
    cases h : findTerm m.entries t with
    | none => rfl
    | some e => rw [h] at ht; cases ht
  have hbound : ∀ e ∈ m.entries, e.idx ≠ m.next := by
    intro e he
    have := (h2 e he).2.1
    omega
  have hterm_ne : ∀ e ∈ m.entries, e.term ≠ t :=
    (findTerm_eq_none_iff _ _).mp hft
  have hnz : ¬ m.next = NULL_INDEX := by
    unfold NULL_INDEX
    omega
  have hfind1 : findTerm (m.entries ++ [⟨t, m.next, 1⟩]) t
      = some ⟨t, m.next, 1⟩ := by
    rw [findTerm_append_none _ hft]
    simp [findTerm]
  have hmk2 := make_index_of_findTerm_some
    (m := (⟨m.entries ++ [⟨t, m.next, 1⟩], m.next + 1⟩ : TermIndexMap T)) hfind1
  have hbump : (m.entries ++ ([⟨t, m.next, 1⟩] : List (TIMEntry T))).map
      (fun e2 =>
      if e2.term = t then (⟨e2.term, e2.idx, e2.refc + 1⟩ : TIMEntry T) else e2)
      = m.entries ++ [⟨t, m.next, 2⟩] := by
    rw [List.map_append]
    congr 1
    · apply map_id_of
      intro a ha
      rw [if_neg (hterm_ne a ha)]
    · simp
  have hfh2 : findHandle (m.entries ++ [⟨t, m.next, 2⟩]) m.next
      = some ⟨t, m.next, 2⟩ := by
    rw [findHandle_append_none _ hbound]
    simp [findHandle]
  have hdec1 : (⟨m.entries ++ [⟨t, m.next, 2⟩], m.next + 1⟩ :
      TermIndexMap T).dec_ref m.next
      = some ⟨(m.entries ++ ([⟨t, m.next, 2⟩] : List (TIMEntry T))).map
          (fun e2 =>
          if e2.idx = m.next then (⟨e2.term, e2.idx, e2.refc - 1⟩ : TIMEntry T)
          else e2),
          m.next + 1⟩ := by
    unfold TermIndexMap.dec_ref
    rw [if_neg hnz, hfh2]
    rfl
  have hdrop : (m.entries ++ ([⟨t, m.next, 2⟩] : List (TIMEntry T))).map
      (fun e2 =>
      if e2.idx = m.next then (⟨e2.term, e2.idx, e2.refc - 1⟩ : TIMEntry T) else e2)
      = m.entries ++ [⟨t, m.next, 1⟩] := by
    rw [List.map_append]
    congr 1
    · apply map_id_of
      intro a ha
      rw [if_neg (hbound a ha)]
    · simp
  rw [hdrop] at hdec1
  have hfh1 : findHandle (m.entries ++ [⟨t, m.next, 1⟩]) m.next
      = some ⟨t, m.next, 1⟩ := by
    rw [findHandle_append_none _ hbound]
    simp [findHandle]
  have hdec2 : (⟨m.entries ++ [⟨t, m.next, 1⟩], m.next + 1⟩ :
      TermIndexMap T).dec_ref m.next
      = some ⟨(m.entries ++ ([⟨t, m.next, 1⟩] : List (TIMEntry T))).filter
          (fun e2 => decide (e2.idx ≠ m.next)), m.next + 1⟩ := by
    unfold TermIndexMap.dec_ref
    rw [if_neg hnz, hfh1]
    rfl
  have hfilter : (m.entries ++ ([⟨t, m.next, 1⟩] : List (TIMEntry T))).filter
      (fun e2 => decide (e2.idx ≠ m.next)) = m.entries := by
    rw [List.filter_append]
    have hl : m.entries.filter (fun e2 => decide (e2.idx ≠ m.next))
        = m.entries :=
      List.filter_eq_self.mpr (fun a ha => decide_eq_true (hbound a ha))
    have hr2 : ([⟨t, m.next, 1⟩] : List (TIMEntry T)).filter
        (fun e2 => decide (e2.idx ≠ m.next)) = [] := by simp
    rw [hl, hr2, List.append_nil]
  rw [hfilter] at hdec2
  have hgidx3 : (⟨m.entries ++ [⟨t, m.next, 1⟩], m.next + 1⟩ :
      TermIndexMap T).get_index t = some m.next := by
    unfold TermIndexMap.get_index
    dsimp only
    rw [hfind1]
    rfl
  have hgidx4 : (⟨m.entries, m.next + 1⟩ : TermIndexMap T).get_index t
      = none := by
    unfold TermIndexMap.get_index
    dsimp only
    rw [hft]
    rfl
  have hgterm4 : (⟨m.entries, m.next + 1⟩ : TermIndexMap T).get_term m.next
      = none := by
    unfold TermIndexMap.get_term
    dsimp only
    rw [if_neg hnz, findHandle_eq_none hbound]
    rfl
  rw [make_index_of_findTerm_none hft]
  dsimp only
  rw [hmk2]
  dsimp only
  rw [hbump]
  refine ⟨rfl, ?_, ?_⟩
  · simp only [hdec1, Option.map_some']
    rw [hgidx3]
  · simp only [hdec1, Option.some_bind, hdec2, Option.map_some']
    rw [hgidx4, hgterm4]

/-- Witness for the C8 theorem at the empty table and a concrete term. -/
theorem tim_refcount_lifecycle_witness :
    Reachable (TermIndexMap.empty Nat) ∧
    (TermIndexMap.empty Nat).get_index 10 = none ∧
    ((((TermIndexMap.empty Nat).make_index 10).2.make_index 10).1
        = ((TermIndexMap.empty Nat).make_index 10).1 ∧
     ((((TermIndexMap.empty Nat).make_index 10).2.make_index 10).2.dec_ref
          ((TermIndexMap.empty Nat).make_index 10).1).map
        (fun m3 => m3.get_index 10)
        = some (some ((TermIndexMap.empty Nat).make_index 10).1) ∧
     (((((TermIndexMap.empty Nat).make_index 10).2.make_index 10).2.dec_ref
          ((TermIndexMap.empty Nat).make_index 10).1).bind
        (fun m3 => m3.dec_ref ((TermIndexMap.empty Nat).make_index 10).1)).map
        (fun m4 => (m4.get_index 10,
          m4.get_term ((TermIndexMap.empty Nat).make_index 10).1))
      = some (none, none)) :=
  ⟨Reachable.empty, rfl, tim_refcount_lifecycle Nat _ 10 Reachable.empty rfl⟩

end TermInterningClaims

end Sophia
